import Mathlib

/-
  Verification of the MapReduce word-count pipeline from
  `doc/source/ray-core/examples/map_reduce.ipynb`.

  The notebook's Python cells are embedded shallowly:
    * `map_function`   — cell `742193e2`
    * `apply_map`      — cell `a2fed469`
    * `apply_reduce`   — cell `5891b2c3`
    * `partitions`     — cell `91c6ddc0` (the slicing comprehension, as a
      function of the corpus and the partition count)
    * `map_results`, `outputs`, `counts` — driver cells `360b19b8`/`a395a7f9`
  Documents and keys are lists of characters (so that every operation is
  structural and computable).  Python dictionaries are insertion-ordered
  association lists (`Dict`): `dictAdd` embeds the `if key not in d:
  d[key] = 0; d[key] += value` idiom of `apply_reduce` and `dictSet` the
  plain `d[k] = v` assignment performed by the final dict comprehension.
  Python's `str.split()` (split on runs of whitespace, dropping empty
  tokens) is `pySplit`; `ord(w.decode("utf-8")[0])` is `firstCharCode`.
  The remote-task plumbing (`@ray.remote`, `ray.get`, `options`) only moves
  values between workers, so the data flow embeds directly.
-/

namespace MapReduce

abbrev Document := List Char
abbrev Word := List Char
abbrev Pair := Word × Nat
abbrev Bucket := List Pair
abbrev Dict := List Pair

/-- Helper for `pySplit`: walks the characters, accumulating the current
word (reversed); whitespace closes the current word, and empty words are
never emitted. -/
def pySplitAux : List Char → List Char → List Word
  | [], acc => if acc = [] then [] else [acc.reverse]
  | c :: cs, acc =>
    if c.isWhitespace then
      if acc = [] then pySplitAux cs [] else acc.reverse :: pySplitAux cs []
    else pySplitAux cs (c :: acc)

/-- Python `s.split()` with no argument: split on runs of whitespace and
drop the empty tokens produced by leading/trailing/repeated whitespace. -/
def pySplit (s : Document) : List Word := pySplitAux s []

/-- Python `s.lower()` (the corpus is ASCII byte strings, for which
character-wise ASCII lowercasing is exact). -/
def pyLower (s : Document) : Document := s.map Char.toLower

/-- Cell `742193e2`: `map_function(document)` yields `(word, 1)` for every
word of `document.lower().split()`. -/
def map_function (document : Document) : List Pair :=
  (pySplit (pyLower document)).map (fun w => (w, 1))

/-- Code point of the first character of a word:
`ord(result[0].decode("utf-8")[0])`.  Every key produced by `map_function`
is a nonempty word, so the default branch is never exercised by the
pipeline. -/
def firstCharCode (w : Word) : Nat := (w.headD ' ').toNat

/-- Bucket index used by `apply_map`: `ord(first_letter) % num_partitions`. -/
def word_index (w : Word) (n : Nat) : Nat := firstCharCode w % n

/-- One iteration of the inner loop of `apply_map`:
`map_results[word_index].append(result)`. -/
def bucketsStep (n : Nat) (buckets : List Bucket) (p : Pair) : List Bucket :=
  buckets.set (word_index p.1 n) (buckets.getD (word_index p.1 n) [] ++ [p])

/-- Cell `a2fed469`: `apply_map(corpus, num_partitions)` starts from
`num_partitions` empty lists and appends each pair produced by
`map_function` over the documents to the bucket selected by `word_index`. -/
def apply_map (corpus : List Document) (num_partitions : Nat) : List Bucket :=
  (corpus.flatMap map_function).foldl (bucketsStep num_partitions)
    (List.replicate num_partitions [])

/-- Python `key in d` on the association-list model of a dict. -/
def dictContains (d : Dict) (key : Word) : Bool :=
  d.any (fun kv => kv.1 == key)

/-- Python `d[key]` lookup (first — and for a genuine dict, only — entry
with that key). -/
def dictLookup (d : Dict) (key : Word) : Option Nat :=
  (d.find? (fun kv => kv.1 == key)).map Prod.snd

/-- The dict idiom of `apply_reduce`:
`if key not in d: d[key] = 0` followed by `d[key] += value`. -/
def dictAdd (d : Dict) (key : Word) (value : Nat) : Dict :=
  if dictContains d key then
    d.map (fun kv => if kv.1 == key then (kv.1, kv.2 + value) else kv)
  else d ++ [(key, value)]

/-- Python assignment `d[key] = value`: overwrite in place if present, else
append a fresh entry. -/
def dictSet (d : Dict) (key : Word) (value : Nat) : Dict :=
  if dictContains d key then
    d.map (fun kv => if kv.1 == key then (kv.1, value) else kv)
  else d ++ [(key, value)]

/-- Cell `5891b2c3`: `apply_reduce(*results)` folds every `(key, value)` of
every input bucket into an initially empty dict with `dictAdd`. -/
def apply_reduce (results : List Bucket) : Dict :=
  results.foldl (fun acc res => res.foldl (fun a kv => dictAdd a kv.1 kv.2) acc) []

/-- Python slice `l[a:b]` for nonnegative bounds (clamping at the length). -/
def pySliceNat (l : List α) (a b : Nat) : List α := (l.take b).drop a

/-- Cell `91c6ddc0`: `chunk = len(corpus) // num_partitions;
partitions = [corpus[i * chunk: (i + 1) * chunk] for i in range(num_partitions)]`,
as a function of the corpus and the partition count. -/
def partitions (corpus : List Document) (num_partitions : Nat) : List (List Document) :=
  let chunk := corpus.length / num_partitions
  (List.range num_partitions).map (fun i => pySliceNat corpus (i * chunk) ((i + 1) * chunk))

/-- Cell `360b19b8`: one `apply_map` task per shard, each returning
`num_partitions` buckets. -/
def map_results (corpus : List Document) (num_partitions : Nat) : List (List Bucket) :=
  (partitions corpus num_partitions).map (fun data => apply_map data num_partitions)

/-- Cell `a395a7f9`, shuffle plus reduce: reducer `i` consumes
`[partition[i] for partition in map_results]`. -/
def outputs (corpus : List Document) (num_partitions : Nat) : List Dict :=
  (List.range num_partitions).map (fun i =>
    apply_reduce ((map_results corpus num_partitions).map (fun partition => partition.getD i [])))

/-- Cell `a395a7f9`, final merge: the dict comprehension
`\x7bk: v for output in ray.get(outputs) for k, v in output.items()\x7d`. -/
def counts (corpus : List Document) (num_partitions : Nat) : Dict :=
  (outputs corpus num_partitions).foldl
    (fun acc output => output.foldl (fun a kv => dictSet a kv.1 kv.2) acc) []

/-- The words of the whole document set, lowercased and split exactly as
`map_function` does, in document order. -/
def naiveWords (corpus : List Document) : List Word :=
  corpus.flatMap (fun d => pySplit (pyLower d))

/-- Naive single-pass word count over a document set: the number of
occurrences of `w` among all words of all documents. -/
def naiveCount (corpus : List Document) (w : Word) : Nat :=
  (naiveWords corpus).count w

/-- Python bound semantics for a slice index: a negative index counts from
the end (clamped at 0), a nonnegative one is clamped at the length. -/
def pyBound (len : Nat) (i : Int) : Nat :=
  if i < 0 then ((len : Int) + i).toNat else min i.toNat len

/-- Python slice `l[a:b]` for arbitrary integer bounds. -/
def pySlice (l : List α) (a b : Int) : List α :=
  (l.take (pyBound l.length b)).drop (pyBound l.length a)

/-- Cell `91c6ddc0` with Python's error behaviour made explicit: the
partition count is an arbitrary integer; `len(corpus) // num_partitions`
raises `ZeroDivisionError` when the count is zero (Python `//` is floor
division, `Int.fdiv`), and `range(n)` is empty for `n ≤ 0`
(`Int.toNat` sends negative integers to `0`). -/
def partitionsE (corpus : List Document) (num_partitions : Int) :
    Except String (List (List Document)) :=
  if num_partitions = 0 then .error "ZeroDivisionError"
  else
    let chunk := Int.fdiv (corpus.length : Int) num_partitions
    .ok ((List.range num_partitions.toNat).map (fun (i : Nat) =>
      pySlice corpus ((i : Int) * chunk) (((i : Int) + 1) * chunk)))

/-! ### Dictionary lemmas -/

/-- Key list of a dict. -/
def dictKeys (d : Dict) : List Word := d.map Prod.fst

lemma dictContains_eq_false_iff {d : Dict} {k : Word} :
    dictContains d k = false ↔ ∀ kv ∈ d, kv.1 ≠ k := by
  simp [dictContains, List.any_eq_false]

lemma dictContains_iff_exists {d : Dict} {k : Word} :
    dictContains d k = true ↔ ∃ kv ∈ d, kv.1 = k := by
  simp [dictContains, List.any_eq_true]

lemma dictLookup_eq_none_iff {d : Dict} {k : Word} :
    dictLookup d k = none ↔ ∀ kv ∈ d, kv.1 ≠ k := by
  simp [dictLookup, List.find?_eq_none]

lemma find?_key_map_preserve (f : Pair → Pair) (hf : ∀ kv, (f kv).1 = kv.1)
    (d : Dict) (w : Word) :
    (d.map f).find? (fun kv => kv.1 == w) =
      Option.map f (d.find? (fun kv => kv.1 == w)) := by
  rw [List.find?_map]
  have hpred : ((fun kv : Pair => kv.1 == w) ∘ f) = fun kv : Pair => kv.1 == w := by
    funext kv
    simp [Function.comp, hf]
  rw [hpred]

lemma find?_of_dictContains {d : Dict} {k : Word} (hc : dictContains d k = true) :
    ∃ kv, d.find? (fun kv => kv.1 == k) = some kv ∧ kv.1 = k := by
  obtain ⟨kv1, hmem, hkey⟩ := dictContains_iff_exists.1 hc
  have hsome : (d.find? (fun kv => kv.1 == k)).isSome := by
    rw [List.find?_isSome]
    exact ⟨kv1, hmem, by simp [hkey]⟩
  obtain ⟨kv0, h0⟩ := Option.isSome_iff_exists.1 hsome
  exact ⟨kv0, h0, by simpa using List.find?_some h0⟩

lemma dictLookup_dictAdd (d : Dict) (k : Word) (v : Nat) (w : Word) :
    dictLookup (dictAdd d k v) w =
      if w = k then some ((dictLookup d k).getD 0 + v) else dictLookup d w := by
  unfold dictAdd
  by_cases hc : dictContains d k
  · simp only [hc, if_true]
    have hmap := find?_key_map_preserve
      (fun kv : Pair => if kv.1 == k then (kv.1, kv.2 + v) else kv)
      (by intro kv; by_cases h : kv.1 == k <;> simp [h]) d w
    unfold dictLookup
    rw [hmap, Option.map_map]
    rcases h0 : d.find? (fun kv => kv.1 == w) with _ | kv0
    · rw [h0]
      by_cases hwk : w = k
      · subst hwk
        obtain ⟨kv0, h1, _⟩ := find?_of_dictContains hc
        rw [h1] at h0
        exact absurd h0 (by simp)
      · simp [hwk]
    · rw [h0]
      have hkey : kv0.1 = w := by simpa using List.find?_some h0
      by_cases hwk : w = k
      · subst hwk
        simp [Function.comp, hkey, h0]
      · have hne : (kv0.1 == k) = false := by
          simp [hkey, hwk]
        simp [Function.comp, hne, hwk, hkey]
  · simp only [hc, Bool.false_eq_true, if_false]
    have hnone : d.find? (fun kv => kv.1 == k) = none := by
      rw [List.find?_eq_none]
      intro kv hkv
      have := (dictContains_eq_false_iff).1 (by simpa using hc) kv hkv
      simpa using this
    unfold dictLookup
    rw [List.find?_append]
    by_cases hwk : w = k
    · subst hwk
      simp [hnone]
    · have hkw : ((k, v).1 == w) = false := by
        simp
        exact Ne.symm hwk
      simp [hkw, hwk]

lemma dictLookup_dictSet (d : Dict) (k : Word) (v : Nat) (w : Word) :
    dictLookup (dictSet d k v) w =
      if w = k then some v else dictLookup d w := by
  unfold dictSet
  by_cases hc : dictContains d k
  · simp only [hc, if_true]
    have hmap := find?_key_map_preserve
      (fun kv : Pair => if kv.1 == k then (kv.1, v) else kv)
      (by intro kv; by_cases h : kv.1 == k <;> simp [h]) d w
    unfold dictLookup
    rw [hmap, Option.map_map]
    rcases h0 : d.find? (fun kv => kv.1 == w) with _ | kv0
    · rw [h0]
      by_cases hwk : w = k
      · subst hwk
        obtain ⟨kv0, h1, _⟩ := find?_of_dictContains hc
        rw [h1] at h0
        exact absurd h0 (by simp)
      · simp [hwk]
    · rw [h0]
      have hkey : kv0.1 = w := by simpa using List.find?_some h0
      by_cases hwk : w = k
      · subst hwk
        simp [Function.comp, hkey]
      · have hne : (kv0.1 == k) = false := by
          simp [hkey, hwk]
        simp [Function.comp, hne, hwk, hkey]
  · simp only [hc, Bool.false_eq_true, if_false]
    have hnone : d.find? (fun kv => kv.1 == k) = none := by
      rw [List.find?_eq_none]
      intro kv hkv
      have := (dictContains_eq_false_iff).1 (by simpa using hc) kv hkv
      simpa using this
    unfold dictLookup
    rw [List.find?_append]
    by_cases hwk : w = k
    · subst hwk
      simp [hnone]
    · have hkw : ((k, v).1 == w) = false := by
        simp
        exact Ne.symm hwk
      simp [hkw, hwk]

/-! ### Reduce-fold lemmas -/

lemma foldAdd_lookup (ps : List Pair) (acc : Dict) (w : Word) :
    dictLookup (ps.foldl (fun a kv => dictAdd a kv.1 kv.2) acc) w =
      if ps.any (fun kv => kv.1 == w) then
        some ((dictLookup acc w).getD 0 +
          ((ps.filter (fun kv => kv.1 == w)).map Prod.snd).sum)
      else dictLookup acc w := by
  induction ps generalizing acc with
  | nil => simp
  | cons kv ps ih =>
    rw [List.foldl_cons, ih]
    by_cases hk : kv.1 = w
    · have hacc : dictLookup (dictAdd acc kv.1 kv.2) w
          = some ((dictLookup acc w).getD 0 + kv.2) := by
        rw [dictLookup_dictAdd, if_pos hk.symm, hk]
      by_cases hps : ps.any (fun kv => kv.1 == w)
      · simp only [hps, if_true, hacc, List.any_cons, List.filter_cons]
        simp [hk, Nat.add_assoc]
      · have hfil : ps.filter (fun kv => kv.1 == w) = [] := by
          rw [List.filter_eq_nil_iff]
          intro x hx hxw
          exact hps (List.any_eq_true.2 ⟨x, hx, hxw⟩)
        simp only [hps, if_false, hacc, List.any_cons, List.filter_cons]
        simp [hk, hfil]
    · have hacc : dictLookup (dictAdd acc kv.1 kv.2) w = dictLookup acc w := by
        rw [dictLookup_dictAdd, if_neg (fun he => hk he.symm)]
      have hb : (kv.1 == w) = false := by simp [hk]
      have hcond : (kv.1 == w || ps.any fun kv => kv.1 == w) = (ps.any fun kv => kv.1 == w) := by
        rw [hb, Bool.false_or]
      rw [List.any_cons, hcond, List.filter_cons, hb, hacc]
      simp

lemma apply_reduce_eq_foldl (rs : List Bucket) :
    apply_reduce rs = rs.flatten.foldl (fun a kv => dictAdd a kv.1 kv.2) [] := by
  rw [apply_reduce, List.foldl_flatten]

/-- Full characterisation of one reduce task: a key is present in the
result iff some input pair carries it, and its value is the sum of the
values of all pairs with that key across all input buckets. -/
lemma apply_reduce_lookup (rs : List Bucket) (w : Word) :
    dictLookup (apply_reduce rs) w =
      if rs.flatten.any (fun kv => kv.1 == w) then
        some (((rs.flatten.filter (fun kv => kv.1 == w)).map Prod.snd).sum)
      else none := by
  rw [apply_reduce_eq_foldl, foldAdd_lookup]
  simp [dictLookup]

lemma dictKeys_dictAdd_nodup {d : Dict} (hd : (dictKeys d).Nodup) (k : Word) (v : Nat) :
    (dictKeys (dictAdd d k v)).Nodup := by
  unfold dictAdd
  by_cases hc : dictContains d k
  · simp only [hc, if_true]
    have hkeys : dictKeys (d.map fun kv => if kv.1 == k then (kv.1, kv.2 + v) else kv)
        = dictKeys d := by
      unfold dictKeys
      rw [List.map_map]
      apply List.map_congr_left
      intro kv _
      by_cases h : kv.1 = k <;> simp [h]
    rw [hkeys]
    exact hd
  · simp only [hc, Bool.false_eq_true, if_false]
    unfold dictKeys
    rw [List.map_append, List.nodup_append]
    refine ⟨hd, by simp, ?_⟩
    intro x hx hx2
    simp only [List.map_cons, List.map_nil, List.mem_singleton] at hx2
    subst hx2
    obtain ⟨kv, hmem, hkey⟩ := List.mem_map.1 hx
    exact (dictContains_eq_false_iff.1 (by simpa using hc)) kv hmem hkey

lemma foldAdd_keys_nodup (ps : List Pair) (acc : Dict) (h : (dictKeys acc).Nodup) :
    (dictKeys (ps.foldl (fun a kv => dictAdd a kv.1 kv.2) acc)).Nodup := by
  induction ps generalizing acc with
  | nil => simpa
  | cons kv ps ih => exact ih _ (dictKeys_dictAdd_nodup h kv.1 kv.2)

lemma apply_reduce_keys_nodup (rs : List Bucket) :
    (dictKeys (apply_reduce rs)).Nodup := by
  rw [apply_reduce_eq_foldl]
  exact foldAdd_keys_nodup _ _ (by simp [dictKeys])

/-! ### Merge (dict-comprehension) lemmas -/

lemma foldSet_lookup_none (o : Dict) : ∀ (acc : Dict) (w : Word),
    dictLookup o w = none →
    dictLookup (o.foldl (fun a kv => dictSet a kv.1 kv.2) acc) w = dictLookup acc w := by
  induction o with
  | nil => intro acc w _; rfl
  | cons kv o ih =>
    intro acc w h
    have h1 : kv.1 ≠ w := dictLookup_eq_none_iff.1 h kv (List.mem_cons_self _ _)
    have h2 : dictLookup o w = none := by
      rw [dictLookup_eq_none_iff] at h ⊢
      exact fun kv2 hm => h kv2 (List.mem_cons_of_mem _ hm)
    rw [List.foldl_cons, ih _ _ h2, dictLookup_dictSet, if_neg (fun he => h1 he.symm)]

lemma foldSet_lookup_some (o : Dict) : ∀ (acc : Dict) (w : Word) (v : Nat),
    (dictKeys o).Nodup → dictLookup o w = some v →
    dictLookup (o.foldl (fun a kv => dictSet a kv.1 kv.2) acc) w = some v := by
  induction o with
  | nil => intro acc w v _ h; simp [dictLookup] at h
  | cons kv o ih =>
    intro acc w v hnd h
    have hndc : kv.1 ∉ dictKeys o ∧ (dictKeys o).Nodup := by
      have := hnd
      simp only [dictKeys, List.map_cons] at this
      exact List.nodup_cons.1 this
    by_cases hk : kv.1 = w
    · have hv : kv.2 = v := by
        unfold dictLookup at h
        rw [List.find?_cons_of_pos _ (by simp [hk])] at h
        simpa using h
      have hrest : dictLookup o w = none := by
        rw [dictLookup_eq_none_iff]
        intro kv2 hm he
        exact hndc.1 (List.mem_map.2 ⟨kv2, hm, by rw [he, hk]⟩)
      rw [List.foldl_cons, foldSet_lookup_none _ _ _ hrest, dictLookup_dictSet,
        if_pos hk.symm, hv]
    · have hrest : dictLookup o w = some v := by
        unfold dictLookup at h ⊢
        rwa [List.find?_cons_of_neg _ (by simp [hk])] at h
      rw [List.foldl_cons]
      exact ih _ _ _ hndc.2 hrest

lemma mergeFold_lookup_none (os : List Dict) : ∀ (acc : Dict) (w : Word),
    (∀ o ∈ os, dictLookup o w = none) →
    dictLookup (os.foldl (fun acc o => o.foldl (fun a kv => dictSet a kv.1 kv.2) acc) acc) w
      = dictLookup acc w := by
  induction os with
  | nil => intro acc w _; rfl
  | cons o os ih =>
    intro acc w h
    rw [List.foldl_cons, ih _ _ (fun o2 hm => h o2 (List.mem_cons_of_mem _ hm)),
      foldSet_lookup_none _ _ _ (h o (List.mem_cons_self _ _))]

lemma getD_eq_getElem_of_lt {l : List α} {i : Nat} (h : i < l.length) (dflt : α) :
    l.getD i dflt = l[i] := by
  rw [List.getD_eq_getElem?_getD, List.getElem?_eq_getElem h]
  rfl

lemma mergeFold_lookup_unique (os : List Dict) (w : Word) (j : Nat) (hj : j < os.length)
    (hnd : (dictKeys (os.getD j [])).Nodup)
    (hothers : ∀ k, k < os.length → k ≠ j → dictLookup (os.getD k []) w = none) :
    dictLookup (os.foldl (fun acc o => o.foldl (fun a kv => dictSet a kv.1 kv.2) acc) []) w
      = dictLookup (os.getD j []) w := by
  have hdecomp : os = os.take j ++ os.getD j [] :: os.drop (j + 1) := by
    conv_lhs => rw [← List.take_append_drop j os]
    congr 1
    rw [List.drop_eq_getElem_cons hj, getD_eq_getElem_of_lt hj]
  have htake : ∀ o ∈ os.take j, dictLookup o w = none := by
    intro o ho
    obtain ⟨k, hk, hko⟩ := List.mem_iff_getElem.1 ho
    have hkj : k < j := lt_of_lt_of_le hk (by simp [List.length_take])
    have hklen : k < os.length := by
      have := hk
      simp only [List.length_take] at this
      omega
    have : (os.take j)[k] = os[k] := List.getElem_take os
    rw [this] at hko
    rw [← hko, ← getD_eq_getElem_of_lt hklen []]
    exact hothers k hklen (Nat.ne_of_lt hkj)
  have hdrop : ∀ o ∈ os.drop (j + 1), dictLookup o w = none := by
    intro o ho
    obtain ⟨k, hk, hko⟩ := List.mem_iff_getElem.1 ho
    have hklen : j + 1 + k < os.length := by
      have := hk
      simp only [List.length_drop] at this
      omega
    have : (os.drop (j + 1))[k] = os[j + 1 + k] := List.getElem_drop os
    rw [this] at hko
    rw [← hko, ← getD_eq_getElem_of_lt hklen []]
    exact hothers (j + 1 + k) hklen (by omega)
  conv_lhs => rw [hdecomp]
  rw [List.foldl_append, List.foldl_cons]
  rcases hv : dictLookup (os.getD j []) w with _ | v
  · rw [mergeFold_lookup_none _ _ _ hdrop, foldSet_lookup_none _ _ _ hv,
      mergeFold_lookup_none _ _ _ htake]
    rfl
  · rw [mergeFold_lookup_none _ _ _ hdrop, foldSet_lookup_some _ _ _ _ hnd hv]

/-! ### Mapper lemmas -/

lemma word_index_lt (w : Word) {n : Nat} (hn : 0 < n) : word_index w n < n :=
  Nat.mod_lt _ hn

lemma getD_set_self {l : List α} {i : Nat} (h : i < l.length) (x dflt : α) :
    (l.set i x).getD i dflt = x := by
  rw [List.getD_eq_getElem?_getD, List.getElem?_set_self h]
  rfl

lemma getD_set_ne {l : List α} {i j : Nat} (h : i ≠ j) (x dflt : α) :
    (l.set i x).getD j dflt = l.getD j dflt := by
  rw [List.getD_eq_getElem?_getD, List.getElem?_set_ne h, ← List.getD_eq_getElem?_getD]

lemma foldBuckets_length (n : Nat) (ps : List Pair) : ∀ (bs : List Bucket),
    (ps.foldl (bucketsStep n) bs).length = bs.length := by
  induction ps with
  | nil => intro bs; rfl
  | cons p ps ih =>
    intro bs
    rw [List.foldl_cons, ih]
    simp [bucketsStep]

lemma apply_map_length (corpus : List Document) (n : Nat) :
    (apply_map corpus n).length = n := by
  rw [apply_map, foldBuckets_length]
  simp

lemma foldBuckets_getD (n : Nat) (ps : List Pair) : ∀ (bs : List Bucket),
    bs.length = n → ∀ j, j < n →
    (ps.foldl (bucketsStep n) bs).getD j [] =
      bs.getD j [] ++ ps.filter (fun p => word_index p.1 n == j) := by
  induction ps with
  | nil =>
    intro bs _ j _
    simp
  | cons p ps ih =>
    intro bs hlen j hj
    have hn : 0 < n := Nat.lt_of_le_of_lt (Nat.zero_le j) hj
    have hi : word_index p.1 n < n := word_index_lt _ hn
    rw [List.foldl_cons]
    have hlen2 : (bucketsStep n bs p).length = n := by simp [bucketsStep, hlen]
    rw [ih _ hlen2 j hj]
    by_cases hij : word_index p.1 n = j
    · rw [bucketsStep, hij, getD_set_self (by rw [hlen]; exact hj),
        List.filter_cons, if_pos (by simp [hij]), List.append_assoc,
        List.singleton_append]
    · rw [bucketsStep, getD_set_ne hij, List.filter_cons, if_neg (by simp [hij])]

/-- Bucket `j` of one mapper holds exactly the pairs of the shard whose key
hashes to `j`, in emission order. -/
lemma apply_map_getD (corpus : List Document) {n : Nat} (j : Nat) (hj : j < n) :
    (apply_map corpus n).getD j [] =
      (corpus.flatMap map_function).filter (fun p => word_index p.1 n == j) := by
  rw [apply_map, foldBuckets_getD n _ _ (by simp) j hj]
  simp [List.getD_eq_getElem?_getD, List.getElem?_replicate, hj]

lemma apply_map_eq_map_range (corpus : List Document) {n : Nat} (hn : 0 < n) :
    apply_map corpus n = (List.range n).map
      (fun j => (corpus.flatMap map_function).filter (fun p => word_index p.1 n == j)) := by
  apply List.ext_getElem
  · simp [apply_map_length]
  · intro i h1 h2
    have hi : i < n := by simpa [apply_map_length] using h1
    rw [← getD_eq_getElem_of_lt h1 ([] : Bucket), apply_map_getD corpus i hi]
    simp

lemma sum_range_ite (n m c : Nat) :
    ((List.range n).map (fun j => if m == j then c else 0)).sum = if m < n then c else 0 := by
  induction n with
  | zero => simp
  | succ n ih =>
    rw [List.range_succ, List.map_append, List.sum_append, ih]
    by_cases h : m < n
    · have hne : m ≠ n := Nat.ne_of_lt h
      simp [h, Nat.lt_succ_of_lt h, hne]
    · by_cases h2 : m = n
      · subst h2
        simp [h, Nat.lt_succ_self]
      · have h3 : ¬m < n + 1 := by omega
        simp [h, h2, h3]

lemma flatten_map_range_cons_perm (g gc : Nat → List α) (x : α) (j0 : Nat) :
    ∀ n, j0 < n → gc j0 = x :: g j0 → (∀ j, j ≠ j0 → gc j = g j) →
    ((List.range n).map gc).flatten.Perm (x :: ((List.range n).map g).flatten) := by
  intro n
  induction n with
  | zero =>
    intro hj0
    exact absurd hj0 (Nat.not_lt_zero _)
  | succ n ih =>
    intro hj0 h0 hothers
    rw [List.range_succ, List.map_append, List.map_append, List.flatten_append,
      List.flatten_append]
    by_cases h : j0 = n
    · subst h
      have heq : (List.range j0).map gc = (List.range j0).map g := by
        apply List.map_congr_left
        intro j hj
        exact hothers j (Nat.ne_of_lt (List.mem_range.1 hj))
      rw [heq]
      simp only [List.map_cons, List.map_nil, List.flatten_cons, List.flatten_nil,
        List.append_nil, h0]
      exact List.perm_middle
    · have hlt : j0 < n := by omega
      have hn : gc n = g n := hothers n (fun he => h he.symm)
      simp only [List.map_cons, List.map_nil, List.flatten_cons, List.flatten_nil,
        List.append_nil, hn]
      refine List.Perm.trans ((ih hlt h0 hothers).append_right (g n)) ?_
      rw [List.cons_append]

lemma flatten_filter_range_perm (l : List Pair) (n : Nat) (f : Pair → Nat)
    (hf : ∀ p : Pair, f p < n) :
    ((List.range n).map (fun j => l.filter (fun p => f p == j))).flatten.Perm l := by
  induction l with
  | nil =>
    have hmap : (List.range n).map (fun j => ([] : List Pair).filter (fun p => f p == j))
        = (List.range n).map (fun _ => ([] : List Pair)) := by
      simp
    rw [hmap]
    have : ((List.range n).map (fun _ => ([] : List Pair))).flatten = [] := by
      simp
    rw [this]
  | cons x l ih =>
    have key := flatten_map_range_cons_perm
      (fun j => l.filter (fun p => f p == j))
      (fun j => (x :: l).filter (fun p => f p == j)) x (f x) n (hf x)
      (by simp [List.filter_cons])
      (by
        intro j hj
        simp only [List.filter_cons]
        rw [if_neg]
        simp
        exact fun he => hj he.symm)
    exact key.trans (ih.cons x)

/-! ### Partitioner lemmas -/

lemma partitions_length (corpus : List Document) (p : Nat) :
    (partitions corpus p).length = p := by
  simp [partitions]

lemma pySliceNat_eq (l : List α) (i c : Nat) :
    pySliceNat l (i * c) ((i + 1) * c) = (l.drop (i * c)).take c := by
  rw [pySliceNat, List.drop_take]
  congr 1
  have h : (i + 1) * c = i * c + c := by ring
  rw [h, Nat.add_sub_cancel_left]

lemma partitions_getD (corpus : List Document) {p : Nat} (i : Nat) (hi : i < p) :
    (partitions corpus p).getD i [] =
      (corpus.drop (i * (corpus.length / p))).take (corpus.length / p) := by
  rw [partitions, List.getD_eq_getElem?_getD, List.getElem?_map, List.getElem?_range hi]
  simp [pySliceNat_eq]

lemma partitions_getD_length (corpus : List Document) {p : Nat} (i : Nat) (hi : i < p) :
    ((partitions corpus p).getD i []).length = corpus.length / p := by
  rw [partitions_getD corpus i hi, List.length_take, List.length_drop]
  have h1 : (i + 1) * (corpus.length / p) ≤ corpus.length := by
    calc (i + 1) * (corpus.length / p) ≤ p * (corpus.length / p) :=
          Nat.mul_le_mul_right _ (Nat.succ_le_of_lt hi)
    _ = corpus.length / p * p := Nat.mul_comm _ _
    _ ≤ corpus.length := Nat.div_mul_le_self _ _
  have h2 : (i + 1) * (corpus.length / p) = i * (corpus.length / p) + corpus.length / p := by
    ring
  rw [h2] at h1
  generalize corpus.length / p = c at *
  generalize corpus.length = L at *
  omega

lemma partitions_flatten (corpus : List Document) (p : Nat) :
    (partitions corpus p).flatten = corpus.take (p * (corpus.length / p)) := by
  suffices h : ∀ (k : Nat) (l : List Document) (c : Nat),
      ((List.range k).map (fun i => pySliceNat l (i * c) ((i + 1) * c))).flatten
        = l.take (k * c) by
    simpa [partitions] using h p corpus (corpus.length / p)
  intro k
  induction k with
  | zero => simp
  | succ k ih =>
    intro l c
    rw [List.range_succ, List.map_append, List.flatten_append, ih]
    have h1 : (k + 1) * c = k * c + c := by ring
    rw [h1, List.take_add]
    simp [pySliceNat_eq]

lemma partitions_flatten_of_dvd {corpus : List Document} {p : Nat}
    (hdvd : p ∣ corpus.length) :
    (partitions corpus p).flatten = corpus := by
  rw [partitions_flatten, Nat.mul_div_cancel' hdvd, List.take_length]

lemma partitions_dropped_length (corpus : List Document) (p : Nat) :
    (corpus.drop (p * (corpus.length / p))).length = corpus.length % p := by
  rw [List.length_drop]
  have h := Nat.div_add_mod corpus.length p
  calc corpus.length - p * (corpus.length / p)
      = (p * (corpus.length / p) + corpus.length % p) - p * (corpus.length / p) := by rw [h]
  _ = corpus.length % p := Nat.add_sub_cancel_left _ _

/-! ### Pipeline characterisation -/

/-- The words that actually enter the job: the words of the documents that
survive partitioning (trailing documents beyond `p * (len / p)` are sliced
away by `partitions`). -/
def shardWords (corpus : List Document) (p : Nat) : List Word :=
  naiveWords ((partitions corpus p).flatten)

lemma flatten_flatMap (L : List (List α)) (f : α → List β) :
    L.flatten.flatMap f = L.flatMap (fun l => l.flatMap f) := by
  rw [List.flatten_eq_flatMap, List.flatMap_assoc]
  simp

lemma flatMap_map_function (docs : List Document) :
    docs.flatMap map_function = (naiveWords docs).map (fun w => (w, 1)) := by
  rw [naiveWords]
  have h : map_function = fun d => (pySplit (pyLower d)).map (fun w => (w, (1:Nat))) := rfl
  rw [h]
  exact (List.map_flatMap _ _ _).symm

lemma reducer_input_flatten (D : List Document) {p : Nat} (i : Nat) (hi : i < p) :
    ((map_results D p).map (fun partition => partition.getD i [])).flatten
      = ((shardWords D p).map (fun w => (w, 1))).filter
          (fun q => word_index q.1 p == i) := by
  rw [map_results, List.map_map]
  have hcongr : ∀ s ∈ partitions D p,
      ((fun partition : List Bucket => partition.getD i []) ∘ (fun data => apply_map data p)) s
        = (fun s => (s.flatMap map_function).filter (fun q => word_index q.1 p == i)) s := by
    intro s _
    simp only [Function.comp]
    exact apply_map_getD s i hi
  rw [List.map_congr_left hcongr]
  have hsplit : (fun s : List Document =>
      (s.flatMap map_function).filter (fun q => word_index q.1 p == i))
        = (List.filter (fun q : Pair => word_index q.1 p == i)) ∘
          (fun s : List Document => s.flatMap map_function) := rfl
  rw [hsplit, ← List.map_map, ← List.filter_flatten]
  congr 1
  rw [← List.flatMap_def, ← flatten_flatMap, flatMap_map_function]
  rfl

lemma outputs_length (D : List Document) (p : Nat) : (outputs D p).length = p := by
  simp [outputs]

lemma outputs_getD (D : List Document) {p : Nat} (i : Nat) (hi : i < p) :
    (outputs D p).getD i [] = apply_reduce
      ((map_results D p).map (fun partition => partition.getD i [])) := by
  rw [outputs, List.getD_eq_getElem?_getD, List.getElem?_map, List.getElem?_range hi]
  rfl

lemma any_eq_false_of_filter_eq_nil {l : List α} {q : α → Bool} (h : l.filter q = []) :
    l.any q = false := by
  rw [List.any_eq_false]
  intro x hx hqx
  have hmem : x ∈ l.filter q := List.mem_filter.2 ⟨hx, hqx⟩
  rw [h] at hmem
  exact absurd hmem (List.not_mem_nil x)

lemma any_eq_true_of_filter_ne_nil {l : List α} {q : α → Bool} (h : l.filter q ≠ []) :
    l.any q = true := by
  obtain ⟨x, hx⟩ := List.exists_mem_of_ne_nil _ h
  obtain ⟨hxl, hxq⟩ := List.mem_filter.1 hx
  exact List.any_eq_true.2 ⟨x, hxl, hxq⟩

lemma filter_key_pairize (ws : List Word) (w : Word) :
    ((ws.map (fun x => (x, 1))).filter (fun q : Pair => q.1 == w))
      = (ws.filter (fun x => x == w)).map (fun x => (x, (1:Nat))) := by
  rw [List.filter_map]
  rfl

lemma count_eq_length_filter_beq (ws : List Word) (w : Word) :
    ws.count w = (ws.filter (fun x => x == w)).length := by
  rw [List.count_eq_countP, List.countP_eq_length_filter]

lemma sum_map_snd_pairize (ws : List Word) :
    (((ws.map (fun x => (x, (1:Nat)))).map Prod.snd)).sum = ws.length := by
  rw [List.map_map]
  have h : (Prod.snd ∘ fun x : Word => (x, (1:Nat))) = fun _ : Word => (1:Nat) := rfl
  rw [h, List.map_const', List.sum_replicate]
  simp

/-- What one reduce task publishes about key `w`: nothing unless it owns
`w`'s bucket, and the full occurrence count of `w` if it does (and `w`
actually occurs in the sharded corpus). -/
lemma reducer_lookup (D : List Document) {p : Nat} (w : Word) (i : Nat) (hi : i < p) :
    dictLookup ((outputs D p).getD i []) w =
      if i = word_index w p ∧ 0 < (shardWords D p).count w
      then some ((shardWords D p).count w) else none := by
  rw [outputs_getD D i hi, apply_reduce_lookup, reducer_input_flatten D i hi]
  by_cases hhome : i = word_index w p
  · have hF : (((shardWords D p).map (fun w => (w, 1))).filter
        (fun q => word_index q.1 p == i)).filter (fun kv => kv.1 == w)
        = ((shardWords D p).filter (fun x => x == w)).map (fun x => (x, (1:Nat))) := by
      rw [List.filter_filter, ← filter_key_pairize]
      apply List.filter_congr
      intro q _
      by_cases hq : (q.1 == w) = true
      · have hqw : q.1 = w := by simpa using hq
        have hidx : (word_index q.1 p == i) = true := by simp [hqw, hhome]
        simp [hq, hidx]
      · simp [hq]
    by_cases hcnt : 0 < (shardWords D p).count w
    · have hne : (shardWords D p).filter (fun x => x == w) ≠ [] := by
        intro hnil
        rw [count_eq_length_filter_beq, hnil] at hcnt
        simp at hcnt
      have hFne : (((shardWords D p).map (fun w => (w, 1))).filter
          (fun q => word_index q.1 p == i)).filter (fun kv => kv.1 == w) ≠ [] := by
        rw [hF]
        intro hnil
        exact hne (by simpa using hnil)
      rw [any_eq_true_of_filter_ne_nil hFne, hF, sum_map_snd_pairize,
        ← count_eq_length_filter_beq, if_pos rfl, if_pos ⟨hhome, hcnt⟩]
    · have hnil : (shardWords D p).filter (fun x => x == w) = [] := by
        have hlen : ((shardWords D p).filter (fun x => x == w)).length = 0 := by
          rw [← count_eq_length_filter_beq]
          omega
        exact List.length_eq_zero.1 hlen
      have hFnil : (((shardWords D p).map (fun w => (w, 1))).filter
          (fun q => word_index q.1 p == i)).filter (fun kv => kv.1 == w) = [] := by
        rw [hF, hnil]
        rfl
      rw [any_eq_false_of_filter_eq_nil hFnil]
      simp [hcnt]
  · have hFnil : (((shardWords D p).map (fun w => (w, 1))).filter
        (fun q => word_index q.1 p == i)).filter (fun kv => kv.1 == w) = [] := by
      rw [List.filter_filter, List.filter_eq_nil_iff]
      intro q _
      by_cases hqw : (q.1 == w) = true
      · have hqw2 : q.1 = w := by simpa using hqw
        have hii : (word_index q.1 p == i) = false := by
          rw [hqw2]
          simp
          exact fun he => hhome he.symm
        simp [hqw, hii]
      · simp [hqw]
    rw [any_eq_false_of_filter_eq_nil hFnil]
    simp [hhome]

/-- Grand characterisation of the job: looking up `w` in the merged
`counts` dict returns the number of occurrences of `w` among the words of
the sharded corpus, or nothing when `w` does not occur there. -/
lemma counts_lookup_char (D : List Document) {p : Nat} (hp : 0 < p) (w : Word) :
    dictLookup (counts D p) w =
      if 0 < (shardWords D p).count w then some ((shardWords D p).count w)
      else none := by
  have hlen : (outputs D p).length = p := outputs_length D p
  have hhome : word_index w p < p := word_index_lt _ hp
  rw [counts, mergeFold_lookup_unique (outputs D p) w (word_index w p)
      (by rw [hlen]; exact hhome)
      (by rw [outputs_getD D _ hhome]; exact apply_reduce_keys_nodup _)
      (by
        intro k hk hkj
        rw [hlen] at hk
        rw [reducer_lookup D w k hk]
        exact if_neg (fun hcon => hkj hcon.1)),
    reducer_lookup D w _ hhome]
  by_cases hcnt : 0 < (shardWords D p).count w
  · rw [if_pos ⟨rfl, hcnt⟩, if_pos hcnt]
  · rw [if_neg (fun hcon => hcnt hcon.2), if_neg hcnt]

/-! ### The empty corpus -/

lemma apply_reduce_of_all_nil (rs : List Bucket) (h : ∀ b ∈ rs, b = []) :
    apply_reduce rs = [] := by
  rw [apply_reduce_eq_foldl, List.flatten_eq_nil_iff.2 h]
  rfl

lemma mergeFold_all_nil (os : List Dict) : ∀ (acc : Dict), (∀ o ∈ os, o = []) →
    os.foldl (fun acc o => o.foldl (fun a kv => dictSet a kv.1 kv.2) acc) acc = acc := by
  induction os with
  | nil => intro acc _; rfl
  | cons o os ih =>
    intro acc h
    rw [List.foldl_cons, h o (List.mem_cons_self _ _)]
    exact ih _ (fun o2 hm => h o2 (List.mem_cons_of_mem _ hm))

lemma partitions_nil (p : Nat) :
    partitions [] p = (List.range p).map (fun _ => ([] : List Document)) := by
  rw [partitions]
  apply List.map_congr_left
  intro i _
  simp [pySliceNat]

lemma counts_nil (p : Nat) : counts [] p = [] := by
  have houts : ∀ o ∈ outputs [] p, o = [] := by
    intro o ho
    rw [outputs] at ho
    obtain ⟨i, _, hio⟩ := List.mem_map.1 ho
    rw [← hio]
    apply apply_reduce_of_all_nil
    intro b hb
    obtain ⟨partition, hpm, hpb⟩ := List.mem_map.1 hb
    rw [map_results, partitions_nil, List.map_map] at hpm
    obtain ⟨j, _, hjp⟩ := List.mem_map.1 hpm
    have hpart : partition = List.replicate p [] := by
      rw [← hjp]
      rfl
    rw [← hpb, hpart, List.getD_eq_getElem?_getD, List.getElem?_replicate]
    split <;> rfl
  rw [counts]
  exact mergeFold_all_nil _ _ houts

lemma pySlice_nil (a b : Int) : pySlice ([] : List Document) a b = [] := by
  simp [pySlice]

lemma partitionsE_empty_pos (p : Nat) (hp : 0 < p) :
    partitionsE [] (p : Int) = .ok (List.replicate p []) := by
  simp only [partitionsE, if_neg (show ¬((p : Int) = 0) by omega), pySlice_nil,
    List.map_const', List.length_range, Int.toNat_natCast]

/-! ### Claim theorems -/

/-- C1, counterexample: the round-trip claim fails as stated.  With
`D = ["a", "b", "c"]` and `p = 2` the naive count of the word `c` is `1`,
but the pipeline's JobResult does not contain `c` at all: the partitioner
slices away the trailing `len(D) mod p` documents. -/
theorem claim1_counterexample :
    naiveCount ["a".toList, "b".toList, "c".toList] "c".toList = 1 ∧
    dictLookup (counts ["a".toList, "b".toList, "c".toList] 2) "c".toList = none :=
  ⟨by decide, by decide⟩

/-- C1, amended: when `p ≥ 1` divides `len(D)` (so that the partitioner
drops no document), every word's entry in the merged JobResult equals the
naive single-pass count over `D`, and words that never occur are absent. -/
theorem claim1_roundtrip_of_dvd (D : List Document) (p : Nat) (hp : 1 ≤ p)
    (hdvd : p ∣ D.length) (w : Word) :
    dictLookup (counts D p) w =
      if 0 < naiveCount D w then some (naiveCount D w) else none := by
  rw [counts_lookup_char D hp w]
  have hsh : shardWords D p = naiveWords D := by
    rw [shardWords, partitions_flatten_of_dvd hdvd]
  rw [hsh]
  rfl

theorem claim1_witness :
    dictLookup (counts ["to".toList, "be".toList] 2) "to".toList =
      if 0 < naiveCount ["to".toList, "be".toList] "to".toList
      then some (naiveCount ["to".toList, "be".toList] "to".toList) else none :=
  claim1_roundtrip_of_dvd ["to".toList, "be".toList] 2 (by decide) (by decide) "to".toList

/-- C2: the bucket index of a key is a function of the key and `p` alone.
For a key `w` occurring in the sharded input: (a) no mapper ever places a
pair with key `w` in a bucket other than `word_index w p`, whatever shard
it processes; (b) a reducer's result contains `w` exactly when its index
is `word_index w p` — so all occurrences of `w` are aggregated by exactly
that one reducer. -/
theorem claim2_key_routing (D : List Document) (p : Nat) (hp : 1 ≤ p) (w : Word)
    (hw : w ∈ shardWords D p) :
    (∀ shard ∈ partitions D p, ∀ j, j < p → j ≠ word_index w p →
        ∀ q ∈ (apply_map shard p).getD j [], q.1 ≠ w) ∧
    (∀ j, j < p →
        (dictLookup ((outputs D p).getD j []) w ≠ none ↔ j = word_index w p)) := by
  have hcnt : 0 < (shardWords D p).count w := List.count_pos_iff.2 hw
  constructor
  · intro shard hs j hj hjne q hq hqw
    rw [apply_map_getD shard j hj] at hq
    have hidx := (List.mem_filter.1 hq).2
    rw [hqw] at hidx
    have h3 : word_index w p = j := by simpa using hidx
    exact hjne h3.symm
  · intro j hj
    rw [reducer_lookup D w j hj]
    constructor
    · intro hne
      by_contra hjne
      exact hne (if_neg (fun hcon => hjne hcon.1))
    · intro hj2
      rw [if_pos ⟨hj2, hcnt⟩]
      simp

theorem claim2_witness :
    dictLookup ((outputs ["to".toList, "or".toList] 2).getD 0 []) "to".toList ≠ none :=
  ((claim2_key_routing ["to".toList, "or".toList] 2 (by decide) "to".toList
    (by decide)).2 0 (by decide)).mpr (by decide)

/-- C3, counterexample: on the spec's own scenario input
`["to be or not to be"]` with `p = 2`, the code returns an *empty*
JobResult — `chunk = 1 // 2 = 0`, so both shards are empty and every word
is dropped — instead of the required `to ↦ 2`. -/
theorem claim3_counterexample :
    counts ["to be or not to be".toList] 2 = [] ∧
    dictLookup (counts ["to be or not to be".toList] 2) "to".toList ≠ some 2 :=
  ⟨by decide, by decide⟩

/-- C3, amended: with the scenario text split into two documents
`["to be or not", "to be"]` (so that `p = 2` divides the document count and
nothing is dropped), the JobResult contains `to ↦ 2`, `be ↦ 2`, `or ↦ 1`
and `not ↦ 1`. -/
theorem claim3_scenario :
    dictLookup (counts ["to be or not".toList, "to be".toList] 2) "to".toList = some 2 ∧
    dictLookup (counts ["to be or not".toList, "to be".toList] 2) "be".toList = some 2 ∧
    dictLookup (counts ["to be or not".toList, "to be".toList] 2) "or".toList = some 1 ∧
    dictLookup (counts ["to be or not".toList, "to be".toList] 2) "not".toList = some 1 :=
  ⟨by decide, by decide, by decide, by decide⟩

/-- C4: determinism.  The JobResult mapping is a mathematical function of
the input document set and the partition count alone (the bucket hash
`ord(first_letter) mod p` carries no per-process salt and the reduce is an
order-insensitive sum), so any two complete runs `r1`, `r2` of the job on
the same input agree: same key list and the same value on every key, both
equal to the closed-form occurrence count of the key in the sharded
corpus. -/
theorem claim4_deterministic (D : List Document) (p : Nat) (hp : 1 ≤ p)
    (r1 r2 : Dict) (h1 : r1 = counts D p) (h2 : r2 = counts D p) :
    dictKeys r1 = dictKeys r2 ∧
    (∀ w, dictLookup r1 w = dictLookup r2 w) ∧
    (∀ w, dictLookup r1 w =
      if 0 < (shardWords D p).count w then some ((shardWords D p).count w)
      else none) := by
  subst h1
  subst h2
  exact ⟨rfl, fun w => rfl, fun w => counts_lookup_char D hp w⟩

theorem claim4_witness :
    dictLookup (counts ["to".toList] 1) "to".toList = some 1 := by
  have h := (claim4_deterministic ["to".toList] 1 (by decide) (counts ["to".toList] 1)
    (counts ["to".toList] 1) rfl rfl).2.2 "to".toList
  rw [h]
  decide

/-- C5: for every `p ≥ 1`, the job on the empty document set completes
normally — the partition step returns `p` empty shards rather than raising
— and the merged JobResult is the empty mapping. -/
theorem claim5_empty_input (p : Nat) (hp : 1 ≤ p) :
    counts [] p = [] ∧ partitionsE [] (p : Int) = .ok (List.replicate p []) :=
  ⟨counts_nil p, partitionsE_empty_pos p hp⟩

theorem claim5_witness :
    counts [] 3 = [] ∧ partitionsE [] ((3 : Nat) : Int) = .ok (List.replicate 3 []) :=
  claim5_empty_input 3 (by decide)

/-- C6, counterexample: the partition step does *not* fail with
`InvalidArgument` in the claimed cases: on an empty document sequence with
`n = 1 > 0` it succeeds with one empty shard, and on `n = -1 ≤ 0` it
succeeds with an empty shard list (Python's `range(-1)` is empty; only
`n = 0` raises, and then a `ZeroDivisionError`). -/
theorem claim6_counterexample :
    partitionsE [] 1 = .ok [[]] ∧ partitionsE ["a".toList] (-1) = .ok [] :=
  ⟨rfl, rfl⟩

/-- C6, amended: on the claim's domain (`n ≤ 0`, or empty documents with
`n > 0`) the partition step raises only for `n = 0` — a
`ZeroDivisionError` from `len(corpus) // 0`, not an `InvalidArgument` —
and otherwise succeeds, returning `max(n, 0)` empty shards. -/
theorem claim6_partition_error_behaviour (docs : List Document) (n : Int)
    (h : n ≤ 0 ∨ (docs = [] ∧ 0 < n)) :
    partitionsE docs n =
      if n = 0 then .error "ZeroDivisionError"
      else .ok (List.replicate n.toNat []) := by
  rcases h with hle | ⟨hdocs, hpos⟩
  · rcases lt_or_eq_of_le hle with hlt | heq
    · have ht : n.toNat = 0 := Int.toNat_of_nonpos (le_of_lt hlt)
      simp only [partitionsE, if_neg (show ¬n = 0 by omega), ht]
      rfl
    · subst heq
      simp [partitionsE]
  · subst hdocs
    have hcast : ((n.toNat : Nat) : Int) = n := Int.toNat_of_nonneg (le_of_lt hpos)
    rw [if_neg (show ¬n = 0 by omega)]
    calc partitionsE [] n = partitionsE [] ((n.toNat : Nat) : Int) := by rw [hcast]
    _ = .ok (List.replicate n.toNat []) := partitionsE_empty_pos n.toNat (by omega)

theorem claim6_witness : partitionsE [] 2 = .ok [[], []] := by
  have h := claim6_partition_error_behaviour [] 2 (Or.inr ⟨rfl, by decide⟩)
  rw [h]
  rfl

/-- C7: one reduce task returns a mapping in which a key is present
exactly when some input pair carries it, and then its value is the sum of
the values of all pairs with that key across all input buckets — no other
key appears. -/
theorem claim7_reduce_sums (rs : List Bucket) (w : Word) :
    dictLookup (apply_reduce rs) w =
      if rs.flatten.any (fun kv => kv.1 == w) then
        some (((rs.flatten.filter (fun kv => kv.1 == w)).map Prod.snd).sum)
      else none :=
  apply_reduce_lookup rs w

/-- C8: for `n ≥ 1` a mapper returns exactly `n` buckets; bucket `j` is
precisely the subsequence of emitted pairs whose key hashes to `j`, and the
concatenation of all buckets is a permutation of the pairs emitted by
`map_function` over the shard — every pair lands in exactly one bucket,
none duplicated, none lost. -/
theorem claim8_mapper_buckets (shard : List Document) (n : Nat) (hn : 1 ≤ n) :
    (apply_map shard n).length = n ∧
    (∀ j, j < n → (apply_map shard n).getD j [] =
      (shard.flatMap map_function).filter (fun q => word_index q.1 n == j)) ∧
    (apply_map shard n).flatten.Perm (shard.flatMap map_function) := by
  refine ⟨apply_map_length shard n, fun j hj => apply_map_getD shard j hj, ?_⟩
  rw [apply_map_eq_map_range shard hn]
  exact flatten_filter_range_perm _ n _ (fun q => word_index_lt _ hn)

theorem claim8_witness : (apply_map ["to be".toList] 2).length = 2 :=
  (claim8_mapper_buckets ["to be".toList] 2 (by decide)).1

/-- C9: the partition step produces exactly `p` shards; shard `i` is the
contiguous slice of `⌊len(D)/p⌋` documents starting at `i·⌊len(D)/p⌋`;
their concatenation is the prefix of `D` of length `p·⌊len(D)/p⌋`; and the
`len(D) mod p` trailing documents beyond that prefix appear in no shard. -/
theorem claim9_partition_shape (D : List Document) (p : Nat) (hp : 1 ≤ p) :
    (partitions D p).length = p ∧
    (∀ i, i < p → (partitions D p).getD i []
        = (D.drop (i * (D.length / p))).take (D.length / p)) ∧
    (∀ i, i < p → ((partitions D p).getD i []).length = D.length / p) ∧
    (partitions D p).flatten = D.take (p * (D.length / p)) ∧
    (D.drop (p * (D.length / p))).length = D.length % p :=
  ⟨partitions_length D p, fun i hi => partitions_getD D i hi,
    fun i hi => partitions_getD_length D i hi, partitions_flatten D p,
    partitions_dropped_length D p⟩

theorem claim9_witness :
    (partitions ["a".toList, "b".toList, "c".toList] 2).flatten
      = ["a".toList, "b".toList, "c".toList].take
          (2 * (["a".toList, "b".toList, "c".toList].length / 2)) :=
  (claim9_partition_shape ["a".toList, "b".toList, "c".toList] 2 (by decide)).2.2.2.1

/-- C10: the key sets of distinct reducers' result mappings are disjoint
(for any key, at most one reducer's output contains it), and consequently
the final dict-comprehension merge never overwrites: whatever one reducer
reports for a key is exactly what the merged JobResult reports. -/
theorem claim10_reducer_disjoint (D : List Document) (p : Nat) (hp : 1 ≤ p) :
    (∀ i j, i < p → j < p → i ≠ j → ∀ w,
        dictLookup ((outputs D p).getD i []) w = none ∨
        dictLookup ((outputs D p).getD j []) w = none) ∧
    (∀ j, j < p → ∀ w v, dictLookup ((outputs D p).getD j []) w = some v →
        dictLookup (counts D p) w = some v) := by
  constructor
  · intro i j hi hj hne w
    by_cases hih : i = word_index w p
    · right
      rw [reducer_lookup D w j hj]
      exact if_neg (fun hcon => hne (hih.trans hcon.1.symm))
    · left
      rw [reducer_lookup D w i hi]
      exact if_neg (fun hcon => hih hcon.1)
  · intro j hj w v hv
    rw [reducer_lookup D w j hj] at hv
    by_cases hcon : j = word_index w p ∧ 0 < (shardWords D p).count w
    · obtain ⟨hjh, hcnt⟩ := hcon
      rw [if_pos ⟨hjh, hcnt⟩] at hv
      rw [counts_lookup_char D hp w, if_pos hcnt]
      exact hv
    · rw [if_neg hcon] at hv
      exact absurd hv (by simp)

theorem claim10_witness :
    dictLookup (counts ["to".toList, "or".toList] 2) "to".toList = some 1 :=
  (claim10_reducer_disjoint ["to".toList, "or".toList] 2 (by decide)).2 0 (by decide)
    "to".toList 1 (by decide)

end MapReduce
